import Mathlib

/-!
Verification of the Isere front end (src/main.cpp): lexer, recursive-descent
parser with operator-precedence climbing, AST, and IR lowering (codegen).

The embedding follows the complete revision of `main.cpp` (the one containing
the full codegen pipeline): `getTok`, the `Parse*` family, `BinopPrecedence`,
`GetTokPrecedence`, and the `codegen` methods of the AST classes.

Modelling conventions:
  - Characters are read from a `List Char`; `getchar` returning `EOF` is
    modelled by `Option Char` = `none`.  The lexer's one-character lookahead
    (the `static int LastChar`, initially `' '`) is passed explicitly.
  - `getTok` recurses after skipping a comment; since each recursion strictly
    consumes input, it is given explicit fuel (`getTokF`) and the wrapper
    `getTok` supplies `rest.length + 1`, which always suffices because the
    number/identifier/operator paths never recurse and each comment recursion
    consumes at least two characters.
  - The parser's one-token buffer (`CurTok` / `getNextToken`) is modelled by
    passing the remaining token list; `CurTok` is its head, an exhausted list
    behaves like the everlasting `tok_eof`.
  - Machine `double`s are never computed with: a number token carries the
    exact source text `NumStr` accumulated by the lexer; `NumVal` is
    `strtod NumStr`, so theorems about token values quantify over an
    arbitrary conversion function applied to that text.
-/

/-- Tokens, mirroring `enum Token` plus the payload globals: `tok_identifier`
carries `IdentifierStr`, `tok_number` carries the source text `NumStr` whose
`strtod` image is `NumVal`, and any other character is returned verbatim
(`Tok.op`). -/
inductive Tok where
  | eof
  | fn
  | imp
  | ident (s : String)
  | num (s : String)
  | op (c : Char)
deriving DecidableEq, Repr

/-- C-locale `isspace`: space (32), and 9..13 (tab, newline, vertical tab,
form feed, carriage return). -/
def isSpaceC (c : Char) : Bool :=
  c.toNat = 32 || (9 ≤ c.toNat && c.toNat ≤ 13)

/-- C-locale `isalpha`: `A`..`Z` (65..90) or `a`..`z` (97..122). -/
def isAlphaC (c : Char) : Bool :=
  (65 ≤ c.toNat && c.toNat ≤ 90) || (97 ≤ c.toNat && c.toNat ≤ 122)

/-- C-locale `isdigit`: `0`..`9` (48..57). -/
def isDigitC (c : Char) : Bool :=
  48 ≤ c.toNat && c.toNat ≤ 57

/-- C-locale `isalnum`. -/
def isAlnumC (c : Char) : Bool :=
  isAlphaC c || isDigitC c

/-- The guard of the number-lexing loop: `isdigit(LastChar) || LastChar == '.'`. -/
def isDigitDot (c : Char) : Bool :=
  isDigitC c || c = '.'

/-- `getchar()`: take the next character of the input, `none` at end of file. -/
def getchar : List Char → Option Char × List Char
  | [] => (none, [])
  | c :: cs => (some c, cs)

/-- The whitespace-skipping loop `while (isspace(LastChar)) LastChar = getchar();`.
Input: current lookahead and remaining characters; output: the updated pair. -/
def skipWS : Option Char → List Char → Option Char × List Char
  | none, rest => (none, rest)
  | some c, rest =>
    if isSpaceC c then
      match rest with
      | [] => (none, [])
      | d :: ds => skipWS (some d) ds
    else (some c, rest)

/-- The identifier loop `while (isalnum((LastChar = getchar()))) IdentifierStr += LastChar;`.
The accumulator holds the characters of `IdentifierStr` so far; the result is
the finished text together with the new lookahead and remaining input. -/
def readIdent : List Char → List Char → List Char × Option Char × List Char
  | [], acc => (acc, none, [])
  | c :: cs, acc =>
    if isAlnumC c then readIdent cs (acc ++ [c]) else (acc, some c, cs)

/-- The number loop: after the first character of `NumStr` is in the
accumulator, keep reading while `isdigit(LastChar) || LastChar == '.'`. -/
def readNum : List Char → List Char → List Char × Option Char × List Char
  | [], acc => (acc, none, [])
  | c :: cs, acc =>
    if isDigitDot c then readNum cs (acc ++ [c]) else (acc, some c, cs)

/-- The single-line-comment loop
`do LastChar = getchar(); while (LastChar != EOF && LastChar != '\n' && LastChar != '\r');`.
Returns the terminating lookahead (`some` newline / carriage return, or `none`
for end of file) and the remaining input. -/
def skipLine : List Char → Option Char × List Char
  | [] => (none, [])
  | c :: cs =>
    if c = '\n' ∨ c = '\r' then (some c, cs) else skipLine cs

/-- The multi-line-comment loop: read characters; on `'*'` read one more and
stop when it is `'/'` (a `'*'` whose follower is not `'/'` does not get its
follower re-examined, exactly as in the source).  `none` models the
"Unterminated multi-line comment" path where `getchar` hit end of file. -/
def skipBlock : List Char → Option (List Char)
  | [] => none
  | c :: cs =>
    if c = '*' then
      match cs with
      | [] => none
      | d :: ds => if d = '/' then some ds else skipBlock ds
    else skipBlock cs

/-- `getTok` with explicit fuel; fuel is spent only on the recursive
`return getTok();` calls that follow a skipped comment.  Result: the token,
the new lookahead (`LastChar`), and the remaining input. -/
def getTokF : Nat → Option Char → List Char → Tok × Option Char × List Char
  | 0, last, rest => (Tok.eof, last, rest)
  | fuel + 1, last, rest =>
    match skipWS last rest with
    | (none, r) => (Tok.eof, none, r)
    | (some c, r) =>
      if isAlphaC c then
        -- identifiers and the keywords `fn` / `import`
        match readIdent r [c] with
        | (s, l2, r2) =>
          if String.mk s = "fn" then (Tok.fn, l2, r2)
          else if String.mk s = "import" then (Tok.imp, l2, r2)
          else (Tok.ident (String.mk s), l2, r2)
      else if isDigitDot c then
        -- numbers: NumStr is the maximal run of digits and dots
        match readNum r [c] with
        | (s, l2, r2) => (Tok.num (String.mk s), l2, r2)
      else if c = '/' then
        match r with
        | [] => (Tok.op '/', none, [])
        | d :: r2 =>
          if d = '/' then
            match skipLine r2 with
            | (some nl, r3) => getTokF fuel (some nl) r3
            | (none, r3) => (Tok.eof, none, r3)
          else if d = '*' then
            match skipBlock r2 with
            | some r3 =>
              match r3 with
              | [] => getTokF fuel none []
              | e :: r4 => getTokF fuel (some e) r4
            | none => (Tok.eof, none, [])
          else (Tok.op '/', some d, r2)
      else
        match r with
        | [] => (Tok.op c, none, [])
        | d :: r2 => (Tok.op c, some d, r2)

/-- `getTok()`: one call of the lexer.  `rest.length + 1` fuel always
suffices, since every comment-recursion consumes at least two characters. -/
def getTok (last : Option Char) (rest : List Char) :
    Tok × Option Char × List Char :=
  getTokF (rest.length + 1) last rest

/-- Driving the lexer to exhaustion (as the REPL does through
`getNextToken`), collecting the token sequence up to and including the first
`tok_eof`. -/
def tokenize : Nat → Option Char → List Char → List Tok
  | 0, _, _ => []
  | fuel + 1, last, rest =>
    match getTok last rest with
    | (Tok.eof, _, _) => [Tok.eof]
    | (t, l, r) => t :: tokenize fuel l r

/-- Lex a whole source string from the initial lexer state
(`LastChar = ' '`, all input pending). -/
def lex (s : String) : List Tok :=
  tokenize (s.length + 1) (some ' ') s.data

/-!
## Abstract syntax tree

The expression node kinds of the source (`NumberExprAST`, `VariableExprAST`,
`BinaryExprAST`, `CallExprAST`) as one closed sum; a number node carries the
source text whose `strtod` image is the stored `double`.
-/

/-- Expression AST. -/
inductive Expr where
  | num (s : String)
  | var (name : String)
  | bin (op : Char) (lhs rhs : Expr)
  | call (callee : String) (args : List Expr)
deriving Repr

/-- `PrototypeAST`: function name and ordered parameter names. -/
structure Prototype where
  name : String
  args : List String
deriving DecidableEq, Repr

/-- `FunctionAST`: prototype plus single body expression. -/
structure FunctionDef where
  proto : Prototype
  body : Expr
deriving Repr

/-!
## Parser

The parser state is the list of not-yet-consumed tokens: `CurTok` is its
head, `getNextToken` drops it.  Each `Parse*` function returns
`Option (result × remaining tokens)`; `none` is the `nullptr` error result.
All functions take fuel, decremented at every call, so that the mutual
recursion is structural; any claim quantifying over fuel is stated for every
fuel value, and concrete parses use an explicitly sufficient amount.
-/

/-- `BinopPrecedence` after `main` installs the standard operators; the
`std::map` `operator[]` read defaults every other key to 0. -/
def BinopPrecedence : Char → Int
  | '<' => 10
  | '+' => 20
  | '-' => 20
  | '*' => 40
  | _ => 0

/-- `GetTokPrecedence()`: `-1` for any non-ASCII / non-character token
(`tok_eof`, keywords, identifiers, numbers are negative ints, hence not
`isascii`), `-1` when the mapped precedence is not positive, the mapped
precedence otherwise. -/
def GetTokPrecedence : List Tok → Int
  | Tok.op c :: _ =>
    if 128 ≤ c.toNat then -1
    else
      let p := BinopPrecedence c
      if p ≤ 0 then -1 else p
  | _ => -1

mutual

/-- `ParseExpression`: a primary followed by `ParseBinOpRHS(0, lhs)`. -/
def parseExpression : Nat → List Tok → Option (Expr × List Tok)
  | 0, _ => none
  | fuel + 1, ts =>
    match parsePrimary fuel ts with
    | none => none
    | some (lhs, ts1) => parseBinOpRHS fuel 0 lhs ts1

/-- `ParsePrimary`: dispatch on `CurTok`.  (For a parenthesised expression the
source eats the `'('` inside `ParseParenExpr`; here it is consumed at the
match, which is the same token-for-token behaviour.) -/
def parsePrimary : Nat → List Tok → Option (Expr × List Tok)
  | 0, _ => none
  | fuel + 1, ts =>
    match ts with
    | Tok.ident name :: ts1 => parseIdentifierExpr fuel name ts1
    | Tok.num s :: ts1 => some (Expr.num s, ts1)
    | Tok.op c :: ts1 => if c = '(' then parseParenExpr fuel ts1 else none
    | _ => none

/-- `ParseIdentifierExpr` after the identifier itself has been consumed
(`IdName` is the argument): a plain variable reference unless a `'('`
follows, in which case a call with comma-separated arguments. -/
def parseIdentifierExpr : Nat → String → List Tok → Option (Expr × List Tok)
  | 0, _, _ => none
  | fuel + 1, name, ts =>
    match ts with
    | Tok.op c :: ts1 =>
      if c = '(' then
        match ts1 with
        | Tok.op c2 :: ts2 =>
          if c2 = ')' then some (Expr.call name [], ts2)
          else parseCallArgs fuel name [] ts1
        | _ => parseCallArgs fuel name [] ts1
      else some (Expr.var name, ts)
    | _ => some (Expr.var name, ts)

/-- The argument-collecting `while (true)` loop of `ParseIdentifierExpr`:
parse an expression, stop at `')'`, continue past `','`, otherwise error. -/
def parseCallArgs : Nat → String → List Expr → List Tok → Option (Expr × List Tok)
  | 0, _, _, _ => none
  | fuel + 1, name, acc, ts =>
    match parseExpression fuel ts with
    | none => none
    | some (arg, ts1) =>
      match ts1 with
      | Tok.op c :: ts2 =>
        if c = ')' then some (Expr.call name (acc ++ [arg]), ts2)
        else if c = ',' then parseCallArgs fuel name (acc ++ [arg]) ts2
        else none
      | _ => none

/-- `ParseParenExpr` after its leading `'('` has been consumed: the inner
expression, then a mandatory `')'`; the inner AST is returned as is. -/
def parseParenExpr : Nat → List Tok → Option (Expr × List Tok)
  | 0, _ => none
  | fuel + 1, ts =>
    match parseExpression fuel ts with
    | none => none
    | some (v, ts1) =>
      match ts1 with
      | Tok.op c :: ts2 => if c = ')' then some (v, ts2) else none
      | _ => none

/-- `ParseBinOpRHS(ExprPrec, LHS)`: precedence climbing.  If the pending
precedence is below `ExprPrec`, return `LHS`; otherwise consume the operator,
parse a primary as `RHS`, let a tighter-binding pending operator reclaim
`RHS` via a recursive call at `TokPrec + 1`, merge into a `BinaryExprAST`,
and loop (the loop is the tail call at the same `ExprPrec`).  The last match
arm is unreachable whenever `ExprPrec ≥ 0` (the only values the program
uses), since a non-operator current token has precedence `-1`. -/
def parseBinOpRHS : Nat → Int → Expr → List Tok → Option (Expr × List Tok)
  | 0, _, _, _ => none
  | fuel + 1, exprPrec, lhs, ts =>
    if GetTokPrecedence ts < exprPrec then some (lhs, ts)
    else
      match ts with
      | Tok.op binOp :: ts1 =>
        match parsePrimary fuel ts1 with
        | none => none
        | some (rhs, ts2) =>
          if GetTokPrecedence ts < GetTokPrecedence ts2 then
            match parseBinOpRHS fuel (GetTokPrecedence ts + 1) rhs ts2 with
            | none => none
            | some (rhs2, ts3) =>
              parseBinOpRHS fuel exprPrec (Expr.bin binOp lhs rhs2) ts3
          else
            parseBinOpRHS fuel exprPrec (Expr.bin binOp lhs rhs) ts2
      | _ => none

end

/-- The parameter-name loop of `ParsePrototype`:
`while (getNextToken() == tok_identifier) ArgNames.push_back(IdentifierStr);`. -/
def parseProtoArgs (fnName : String) (acc : List String) :
    List Tok → Option (Prototype × List Tok)
  | Tok.ident a :: ts => parseProtoArgs fnName (acc ++ [a]) ts
  | Tok.op ')' :: ts => some (⟨fnName, acc⟩, ts)
  | _ => none

/-- `ParsePrototype`: identifier, `'('`, identifier parameter names with no
separators, `')'`. -/
def parsePrototype : List Tok → Option (Prototype × List Tok)
  | Tok.ident fnName :: Tok.op '(' :: ts1 => parseProtoArgs fnName [] ts1
  | _ => none


/-!
## IR lowering (codegen)

The LLVM objects are shallowly embedded:

  - `Value` is the SSA value identity: a floating-point constant (carrying the
    literal's source text, since its `double` is never computed with), a
    function argument, or the result of an emitted instruction (numbered by a
    running counter, which models pointer identity of the `llvm::Value`).
  - An `IRFunction` is a module entry: name, argument names (set by
    `Arg.setName`), and `body`: `none` while the function is only declared
    (`Function::empty()` holds), `some instrs` once `FunctionAST::codegen`
    has created the single `entry` block.  The program never creates more
    than one block per function.
  - `CGState` bundles `TheModule` (functions in creation order), the
    `NamedValues` map (an association list; `std::map` orders keys
    differently but has the same key set and lookup results), the builder's
    insertion function (`SetInsertPoint` always targets the entry block of
    the function being lowered), and the instruction counter.
  - Errors (`LogErrorV` + `return nullptr`) are `none` results; state
    changes made before the error (emitted instructions, the `NamedValues`
    default-insertion) persist, exactly as in the source.
-/

/-- An SSA value. -/
inductive Value where
  | constFP (s : String)
  | arg (fn : String) (idx : Nat)
  | instr (id : Nat)
deriving DecidableEq, Repr

/-- An emitted IR instruction; the `Nat` is the id of the produced value. -/
inductive Instr where
  | fadd (id : Nat) (l r : Value)
  | fsub (id : Nat) (l r : Value)
  | fmul (id : Nat) (l r : Value)
  | fcmpULT (id : Nat) (l r : Value)
  | uitofp (id : Nat) (v : Value)
  | call (id : Nat) (callee : String) (args : List Value)
  | ret (v : Value)
deriving DecidableEq, Repr

/-- A function in `TheModule`.  `body = none` models a declaration with no
basic blocks (`Function::empty()`); `body = some instrs` models the single
`entry` block holding `instrs`. -/
structure IRFunction where
  name : String
  args : List String
  body : Option (List Instr)
deriving DecidableEq, Repr

/-- `NamedValues`: name to `Value*`; `some none` models a key mapped to
`nullptr` (which `std::map::operator[]` default-inserts). -/
abbrev Env := List (String × Option Value)

/-- The codegen state: `TheModule`, `NamedValues`, the builder's current
insertion function, and the running value counter. -/
structure CGState where
  module : List IRFunction
  namedValues : Env
  insertFn : Option String
  nextId : Nat
deriving DecidableEq, Repr

/-- `TheModule->getFunction(name)`: the (unique, hence first) function with
that name. -/
def findFn (m : List IRFunction) (n : String) : Option IRFunction :=
  m.find? (fun f => f.name = n)

/-- Apply `upd` to the function named `n` (in-place mutation through a
`Function *`). -/
def updateFn (m : List IRFunction) (n : String) (upd : IRFunction → IRFunction) :
    List IRFunction :=
  match m with
  | [] => []
  | f :: fs => if f.name = n then upd f :: fs else f :: updateFn fs n upd

/-- `Function::eraseFromParent()`: remove the function named `n`. -/
def eraseFn (m : List IRFunction) (n : String) : List IRFunction :=
  match m with
  | [] => []
  | f :: fs => if f.name = n then fs else f :: eraseFn fs n

/-- Read-only lookup in `NamedValues` (`none`: key absent; `some none`: key
present, bound to `nullptr`). -/
def envLookup (env : Env) (k : String) : Option (Option Value) :=
  match env with
  | [] => none
  | (k1, v) :: rest => if k1 = k then some v else envLookup rest k

/-- `NamedValues[k] = v`: overwrite if present, insert otherwise. -/
def envSet (env : Env) (k : String) (v : Option Value) : Env :=
  match env with
  | [] => [(k, v)]
  | (k1, w) :: rest => if k1 = k then (k1, v) :: rest else (k1, w) :: envSet rest k v

/-- `Builder->Create...`: append an instruction to the entry block of the
current insertion function.  (The program only ever emits while an insertion
point is set; without one this is a no-op.) -/
def emit (i : Instr) (st : CGState) : CGState :=
  match st.insertFn with
  | none => st
  | some n =>
    { st with
      module := updateFn st.module n
        (fun f => { f with body := f.body.map (fun is => is ++ [i]) }) }

/-- Draw a fresh value id. -/
def fresh (st : CGState) : Nat × CGState :=
  (st.nextId, { st with nextId := st.nextId + 1 })

mutual

/-- `ExprAST::codegen()` over the four expression kinds.  Returns the
produced `Value` (or `none` on error) together with the updated state.
  - `NumberExprAST`: `ConstantFP::get` — no state change.
  - `VariableExprAST`: `NamedValues[Name]` default-inserts a `nullptr`
    binding for an absent key; a null result is the "Unknown Variable name"
    error.
  - `BinaryExprAST`: both sides are lowered (left first, and the right side
    is lowered even if the left failed, as in the source); then dispatch on
    the operator, `'<'` emitting a compare followed by a widening
    conversion; any other operator is the "invalid binary operator" error.
  - `CallExprAST`: unknown callee and arity mismatch are errors checked
    before any argument is lowered; arguments are lowered left to right and
    the first failure aborts. -/
def exprCodegen : Expr → CGState → Option Value × CGState
  | Expr.num s, st => (some (Value.constFP s), st)
  | Expr.var name, st =>
    match envLookup st.namedValues name with
    | some v => (v, st)
    | none => (none, { st with namedValues := st.namedValues ++ [(name, none)] })
  | Expr.bin op l r, st =>
    match exprCodegen l st with
    | (lv, st1) =>
      match exprCodegen r st1 with
      | (rv, st2) =>
        match lv, rv with
        | some lval, some rval =>
          match op with
          | '+' =>
            match fresh st2 with
            | (id, st3) => (some (Value.instr id), emit (Instr.fadd id lval rval) st3)
          | '-' =>
            match fresh st2 with
            | (id, st3) => (some (Value.instr id), emit (Instr.fsub id lval rval) st3)
          | '*' =>
            match fresh st2 with
            | (id, st3) => (some (Value.instr id), emit (Instr.fmul id lval rval) st3)
          | '<' =>
            match fresh st2 with
            | (id1, st3) =>
              match fresh (emit (Instr.fcmpULT id1 lval rval) st3) with
              | (id2, st4) =>
                (some (Value.instr id2), emit (Instr.uitofp id2 (Value.instr id1)) st4)
          | _ => (none, st2)
        | _, _ => (none, st2)
  | Expr.call callee args, st =>
    match findFn st.module callee with
    | none => (none, st)
    | some calleeF =>
      if calleeF.args.length ≠ args.length then (none, st)
      else
        match codegenArgs args st with
        | (none, st1) => (none, st1)
        | (some vs, st1) =>
          match fresh st1 with
          | (id, st2) => (some (Value.instr id), emit (Instr.call id callee vs) st2)

/-- The argument loop of `CallExprAST::codegen`: lower each argument in
order, aborting at the first failure. -/
def codegenArgs : List Expr → CGState → Option (List Value) × CGState
  | [], st => (some [], st)
  | a :: rest, st =>
    match exprCodegen a st with
    | (none, st1) => (none, st1)
    | (some v, st1) =>
      match codegenArgs rest st1 with
      | (none, st2) => (none, st2)
      | (some vs, st2) => (some (v :: vs), st2)

end

/-- `PrototypeAST::codegen()`: create an external-linkage function of the
module's single numeric type with the prototype's name, no body, and the
parameter names applied to its arguments; returns (a reference to) it. -/
def protoCodegen (p : Prototype) (st : CGState) : IRFunction × CGState :=
  let f : IRFunction := { name := p.name, args := p.args, body := none }
  (f, { st with module := st.module ++ [f] })

/-- The `NamedValues` resetting loop of `FunctionAST::codegen`:
`NamedValues.clear();` then `NamedValues[Arg.getName()] = &Arg` for the
arguments of the function object being defined, in order. -/
def mkArgEnv (fn : String) : List String → Nat → Env → Env
  | [], _, env => env
  | a :: rest, i, env => mkArgEnv fn rest (i + 1) (envSet env a (some (Value.arg fn i)))

/-- Is the instruction a terminator (`ret`)? -/
def isRetI : Instr → Bool
  | Instr.ret _ => true
  | _ => false

/-- A decidable rendering of what `verifyFunction` checks on the functions
this program builds: the entry block exists, its last instruction is the
terminator `ret`, and no earlier instruction is a terminator. -/
def verifyFn (f : IRFunction) : Bool :=
  match f.body with
  | none => false
  | some instrs =>
    match instrs.getLast? with
    | some (Instr.ret _) => instrs.dropLast.all (fun i => !isRetI i)
    | _ => false

/-- The local state `st2` of `FunctionAST::codegen` right before the body
is lowered: the `entry` block has been created on the function (its body
becomes the empty instruction list), the builder points at it, and
`NamedValues` has been cleared and repopulated from the function's
argument names. -/
def entryState (st : CGState) (fname : String) (fargs : List String) : CGState :=
  { st with
    module := updateFn st.module fname (fun g => { g with body := some [] }),
    insertFn := some fname,
    namedValues := mkArgEnv fname fargs 0 [] }

/-- The part of `FunctionAST::codegen` after `TheFunction` is in hand. -/
def funcCodegenBody (fd : FunctionDef) (f : IRFunction) (st : CGState) :
    Option String × CGState :=
  if f.body ≠ none then (none, st)
  else
    match exprCodegen fd.body (entryState st f.name f.args) with
    | (some rv, st3) => (some f.name, emit (Instr.ret rv) st3)
    | (none, st3) => (none, { st3 with module := eraseFn st3.module f.name })

/-- `FunctionAST::codegen()`: reuse the function from a previous `import`
declaration if present, otherwise create it from the prototype; fail if it
already has a body ("Function cannot be redefined"); create the `entry`
block, point the builder at it, reset `NamedValues` to the (existing)
function's argument names, lower the body; on success emit `ret` of the
body's value and run `verifyFunction` (whose result the program ignores);
on failure erase the function from the module.  Returns the name of the
defined function (the model of the returned `Function *`). -/
def funcCodegen (fd : FunctionDef) (st : CGState) : Option String × CGState :=
  match findFn st.module fd.proto.name with
  | some f => funcCodegenBody fd f st
  | none =>
    match protoCodegen fd.proto st with
    | (f, st1) => funcCodegenBody fd f st1

/-- The state after `InitializeModule()`. -/
def initialState : CGState :=
  { module := [], namedValues := [], insertFn := none, nextId := 0 }

/-- The codegen state after `import f(a b)` while the builder sits in the
entry block of a function `g` being defined (as the driver arranges before
lowering a call). -/
def importedState : CGState :=
  { module := [⟨"f", ["a", "b"], none⟩, ⟨"g", [], some []⟩],
    namedValues := [], insertFn := some "g", nextId := 0 }

mutual

/-- No `BinaryExprAST` node anywhere in the expression carries the operator
`'/'`. -/
def noDivOp : Expr → Bool
  | Expr.num _ => true
  | Expr.var _ => true
  | Expr.bin op l r => !(op = '/') && noDivOp l && noDivOp r
  | Expr.call _ args => noDivOpList args

/-- `noDivOp` over an argument list. -/
def noDivOpList : List Expr → Bool
  | [] => true
  | e :: es => noDivOp e && noDivOpList es

end

/-- Pointwise relation between a function before and after expression
lowering: same name and arguments, and the entry block only grew by
non-terminator instructions. -/
def fnExtends (f g : IRFunction) : Prop :=
  g.name = f.name ∧ g.args = f.args ∧
  ((f.body = none ∧ g.body = none) ∨
    ∃ is t, f.body = some is ∧ g.body = some (is ++ t) ∧ ∀ i ∈ t, isRetI i = false)

/-- Relation between codegen states across `ExprAST::codegen`: the module
has the same functions (pointwise `fnExtends`) and the insertion point is
unchanged. -/
def stExtends (st st' : CGState) : Prop :=
  List.Forall₂ fnExtends st.module st'.module ∧ st'.insertFn = st.insertFn


/-- Is a token a number, and with which `NumVal`?  `conv` abstracts the
string-to-double conversion (`strtod`): the lexer stores `conv NumStr`. -/
def tokNumValue {α : Type} (conv : String → α) : Tok → Option α
  | Tok.num s => some (conv s)
  | _ => none

/-- `true` iff the input does not continue with a digit or `'.'` (so a run
of number characters ending here is maximal). -/
def headNotNum : List Char → Bool
  | [] => true
  | d :: _ => !isDigitDot d

/-!
## Lemmas about the lexer
-/

theorem digitDot_not_space (c : Char) (h : isDigitDot c = true) :
    isSpaceC c = false := by
  simp only [isDigitDot, isDigitC, Bool.or_eq_true, Bool.and_eq_true,
    decide_eq_true_eq] at h
  rcases h with ⟨h1, h2⟩ | h
  · simp only [isSpaceC, Bool.or_eq_false_iff, Bool.and_eq_false_iff,
      decide_eq_false_iff_not]
    omega
  · subst h; decide

theorem digitDot_not_alpha (c : Char) (h : isDigitDot c = true) :
    isAlphaC c = false := by
  simp only [isDigitDot, isDigitC, Bool.or_eq_true, Bool.and_eq_true,
    decide_eq_true_eq] at h
  rcases h with ⟨h1, h2⟩ | h
  · simp only [isAlphaC, Bool.or_eq_false_iff, Bool.and_eq_false_iff,
      decide_eq_false_iff_not]
    omega
  · subst h; decide

theorem skipWS_not_space (c : Char) (rest : List Char)
    (h : isSpaceC c = false) :
    skipWS (some c) rest = (some c, rest) := by
  cases rest <;> simp [skipWS, h]

theorem readNum_maximal_run (run : List Char) :
    ∀ (acc rest : List Char), run.all isDigitDot = true →
      headNotNum rest = true →
      readNum (run ++ rest) acc = (acc ++ run, getchar rest) := by
  induction run with
  | nil =>
    intro acc rest _ hrest
    cases rest with
    | nil => simp [readNum, getchar]
    | cons d ds =>
      simp only [headNotNum, Bool.not_eq_true'] at hrest
      simp [readNum, hrest, getchar]
  | cons c cs ih =>
    intro acc rest hall hrest
    simp only [List.all_cons, Bool.and_eq_true] at hall
    simp only [List.cons_append, readNum, hall.1, if_true]
    simpa [List.append_assoc] using ih (acc ++ [c]) rest hall.2 hrest

theorem getTokF_number (fuel : Nat) (c : Char) (run rest : List Char)
    (h1 : isDigitDot c = true) (h2 : run.all isDigitDot = true)
    (h3 : headNotNum rest = true) :
    getTokF (fuel + 1) (some c) (run ++ rest) =
      (Tok.num (String.mk (c :: run)), getchar rest) := by
  have hs : isSpaceC c = false := digitDot_not_space c h1
  have ha : isAlphaC c = false := digitDot_not_alpha c h1
  rw [getTokF, skipWS_not_space c _ hs]
  simp only [ha, Bool.false_eq_true, if_false, h1, if_true]
  rw [readNum_maximal_run run [c] rest h2 h3]
  cases rest <;> simp [getchar]

/-!
## Lemmas about the parser
-/

theorem GetTokPrecedence_div (ts : List Tok) :
    GetTokPrecedence (Tok.op '/' :: ts) = -1 := rfl

theorem noDivOpList_append (as bs : List Expr) :
    noDivOpList (as ++ bs) = (noDivOpList as && noDivOpList bs) := by
  induction as with
  | nil => simp [noDivOpList]
  | cons a as ih => simp [noDivOpList, ih, Bool.and_assoc]

theorem parser_noDiv (fuel : Nat) :
    (∀ ts e r, parseExpression fuel ts = some (e, r) → noDivOp e = true) ∧
    (∀ ts e r, parsePrimary fuel ts = some (e, r) → noDivOp e = true) ∧
    (∀ name ts e r, parseIdentifierExpr fuel name ts = some (e, r) →
      noDivOp e = true) ∧
    (∀ name acc ts e r, noDivOpList acc = true →
      parseCallArgs fuel name acc ts = some (e, r) → noDivOp e = true) ∧
    (∀ ts e r, parseParenExpr fuel ts = some (e, r) → noDivOp e = true) ∧
    (∀ p lhs ts e r, 0 ≤ p → noDivOp lhs = true →
      parseBinOpRHS fuel p lhs ts = some (e, r) → noDivOp e = true) := by
  induction fuel with
  | zero =>
    refine ⟨?_, ?_, ?_, ?_, ?_, ?_⟩ <;> intros <;>
      simp_all [parseExpression, parsePrimary, parseIdentifierExpr,
        parseCallArgs, parseParenExpr, parseBinOpRHS]
  | succ n ih =>
    obtain ⟨ihE, ihP, ihI, ihA, ihPar, ihB⟩ := ih
    refine ⟨?_, ?_, ?_, ?_, ?_, ?_⟩
    · -- parseExpression
      intro ts e r h
      rw [parseExpression] at h
      cases hp : parsePrimary n ts with
      | none => rw [hp] at h; exact absurd h (by simp)
      | some pr =>
        obtain ⟨lhs, ts1⟩ := pr
        rw [hp] at h
        exact ihB 0 lhs ts1 e r le_rfl (ihP ts lhs ts1 hp) h
    · -- parsePrimary
      intro ts e r h
      cases ts with
      | nil => simp [parsePrimary] at h
      | cons t ts1 =>
        cases t with
        | ident name =>
          rw [show parsePrimary (n + 1) (Tok.ident name :: ts1) =
              parseIdentifierExpr n name ts1 from by simp [parsePrimary]] at h
          exact ihI name ts1 e r h
        | num s =>
          simp only [parsePrimary, Option.some.injEq, Prod.mk.injEq] at h
          rw [← h.1]; rfl
        | op c =>
          simp only [parsePrimary] at h
          split at h
          · exact ihPar ts1 e r h
          · exact absurd h (by simp)
        | eof => simp [parsePrimary] at h
        | fn => simp [parsePrimary] at h
        | imp => simp [parsePrimary] at h
    · -- parseIdentifierExpr
      intro name ts e r h
      cases ts with
      | nil =>
        simp [parseIdentifierExpr] at h
        rw [← h.1]; rfl
      | cons t ts1 =>
        cases t with
        | op c =>
          simp only [parseIdentifierExpr] at h
          split at h
          · split at h
            · split at h
              · simp only [Option.some.injEq, Prod.mk.injEq] at h
                rw [← h.1]; rfl
              · exact ihA name [] _ e r rfl h
            · exact ihA name [] _ e r rfl h
          · simp only [Option.some.injEq, Prod.mk.injEq] at h
            rw [← h.1]; rfl
        | eof =>
          simp [parseIdentifierExpr] at h
          rw [← h.1]; rfl
        | fn =>
          simp [parseIdentifierExpr] at h
          rw [← h.1]; rfl
        | imp =>
          simp [parseIdentifierExpr] at h
          rw [← h.1]; rfl
        | ident s =>
          simp [parseIdentifierExpr] at h
          rw [← h.1]; rfl
        | num s =>
          simp [parseIdentifierExpr] at h
          rw [← h.1]; rfl
    · -- parseCallArgs
      intro name acc ts e r hacc h
      rw [parseCallArgs] at h
      cases hx : parseExpression n ts with
      | none => rw [hx] at h; exact absurd h (by simp)
      | some pr =>
        obtain ⟨arg, ts1⟩ := pr
        rw [hx] at h
        simp only at h
        have harg : noDivOp arg = true := ihE ts arg ts1 hx
        split at h
        · split at h
          · simp only [Option.some.injEq, Prod.mk.injEq] at h
            rw [← h.1]
            simp [noDivOp, noDivOpList_append, noDivOpList, hacc, harg]
          · split at h
            · exact ihA _ _ _ _ _
                (by simp [noDivOpList_append, noDivOpList, hacc, harg]) h
            · exact absurd h (by simp)
        · exact absurd h (by simp)
    · -- parseParenExpr
      intro ts e r h
      rw [parseParenExpr] at h
      cases hx : parseExpression n ts with
      | none => rw [hx] at h; exact absurd h (by simp)
      | some pr =>
        obtain ⟨v, ts1⟩ := pr
        rw [hx] at h
        simp only at h
        have hv : noDivOp v = true := ihE ts v ts1 hx
        split at h
        · split at h
          · simp only [Option.some.injEq, Prod.mk.injEq] at h
            rw [← h.1]; exact hv
          · exact absurd h (by simp)
        · exact absurd h (by simp)
    · -- parseBinOpRHS
      intro p lhs ts e r hp hlhs h
      cases ts with
      | nil =>
        simp [parseBinOpRHS] at h
        rw [← h.2.1]; exact hlhs
      | cons t ts1 =>
        cases t with
        | op binOp =>
          rw [parseBinOpRHS] at h
          by_cases hlt : GetTokPrecedence (Tok.op binOp :: ts1) < p
          · rw [if_pos hlt] at h
            simp only [Option.some.injEq, Prod.mk.injEq] at h
            rw [← h.1]; exact hlhs
          · rw [if_neg hlt] at h
            have hprec : (0 : Int) ≤ GetTokPrecedence (Tok.op binOp :: ts1) :=
              le_trans hp (not_lt.mp hlt)
            have hdiv : ¬(binOp = '/') := by
              intro hcontra
              rw [hcontra, GetTokPrecedence_div] at hprec
              omega
            cases hx : parsePrimary n ts1 with
            | none => rw [hx] at h; exact absurd h (by simp)
            | some pr =>
              obtain ⟨rhs, ts2⟩ := pr
              rw [hx] at h
              simp only at h
              have hrhs : noDivOp rhs = true := ihP ts1 rhs ts2 hx
              by_cases hnext :
                  GetTokPrecedence (Tok.op binOp :: ts1) < GetTokPrecedence ts2
              · rw [if_pos hnext] at h
                cases hy : parseBinOpRHS n
                    (GetTokPrecedence (Tok.op binOp :: ts1) + 1) rhs ts2 with
                | none => rw [hy] at h; exact absurd h (by simp)
                | some pr2 =>
                  obtain ⟨rhs2, ts3⟩ := pr2
                  rw [hy] at h
                  have hrhs2 : noDivOp rhs2 = true :=
                    ihB (GetTokPrecedence (Tok.op binOp :: ts1) + 1) rhs ts2
                      rhs2 ts3 (by omega) hrhs hy
                  exact ihB p (Expr.bin binOp lhs rhs2) ts3 e r hp
                    (by simp [noDivOp, hdiv, hlhs, hrhs2]) h
              · rw [if_neg hnext] at h
                exact ihB p (Expr.bin binOp lhs rhs) ts2 e r hp
                  (by simp [noDivOp, hdiv, hlhs, hrhs]) h
        | eof =>
          simp [parseBinOpRHS] at h
          rw [← h.2.1]; exact hlhs
        | fn =>
          simp [parseBinOpRHS] at h
          rw [← h.2.1]; exact hlhs
        | imp =>
          simp [parseBinOpRHS] at h
          rw [← h.2.1]; exact hlhs
        | ident s =>
          simp [parseBinOpRHS] at h
          rw [← h.2.1]; exact hlhs
        | num s =>
          simp [parseBinOpRHS] at h
          rw [← h.2.1]; exact hlhs

/-!
## Lemmas about the codegen state
-/

theorem envLookup_envSet (env : Env) (k : String) (v : Option Value) (x : String) :
    envLookup (envSet env k v) x = if k = x then some v else envLookup env x := by
  induction env with
  | nil => by_cases h : k = x <;> simp [envSet, envLookup, h]
  | cons p rest ih =>
    obtain ⟨k1, w⟩ := p
    by_cases h1 : k1 = k
    · subst h1
      by_cases h2 : k1 = x <;> simp [envSet, envLookup, h2]
    · by_cases h2 : k1 = x
      · subst h2
        have hkx : ¬(k = k1) := fun hc => h1 hc.symm
        simp [envSet, envLookup, h1, hkx]
      · simp [envSet, envLookup, h1, h2, ih]

theorem mkArgEnv_lookup_notMem (fn : String) (as : List String) :
    ∀ (i : Nat) (env : Env) (x : String), x ∉ as →
      envLookup (mkArgEnv fn as i env) x = envLookup env x := by
  induction as with
  | nil => intro i env x _; rfl
  | cons a rest ih =>
    intro i env x hx
    simp only [mkArgEnv]
    rw [ih (i + 1) _ x (fun hc => hx (List.mem_cons_of_mem a hc))]
    rw [envLookup_envSet]
    rw [if_neg (fun hc => hx (by rw [← hc]; exact List.mem_cons_self a rest))]

theorem mkArgEnv_lookup_mem (fn : String) (as : List String) :
    ∀ (i : Nat) (env : Env) (x : String), x ∈ as →
      ∃ j, envLookup (mkArgEnv fn as i env) x = some (some (Value.arg fn j)) := by
  induction as with
  | nil => intro i env x hx; exact absurd hx (List.not_mem_nil x)
  | cons a rest ih =>
    intro i env x hx
    by_cases hmem : x ∈ rest
    · exact ih (i + 1) _ x hmem
    · have hax : a = x := by
        rcases List.mem_cons.mp hx with h | h
        · exact h.symm
        · exact absurd h hmem
      refine ⟨i, ?_⟩
      simp only [mkArgEnv]
      rw [mkArgEnv_lookup_notMem fn rest (i + 1) _ x hmem]
      rw [envLookup_envSet, if_pos hax]

theorem fnExtends_refl (f : IRFunction) : fnExtends f f := by
  refine ⟨rfl, rfl, ?_⟩
  cases hb : f.body with
  | none => exact Or.inl ⟨rfl, rfl⟩
  | some is => exact Or.inr ⟨is, [], rfl, by simp, by simp⟩

theorem fnExtends_trans (f g h : IRFunction)
    (h1 : fnExtends f g) (h2 : fnExtends g h) : fnExtends f h := by
  obtain ⟨hn1, ha1, hb1⟩ := h1
  obtain ⟨hn2, ha2, hb2⟩ := h2
  refine ⟨hn2.trans hn1, ha2.trans ha1, ?_⟩
  rcases hb1 with ⟨hf, hg⟩ | ⟨is, t, hf, hg, ht⟩
  · rcases hb2 with ⟨_, hh⟩ | ⟨is2, t2, hg2, _, _⟩
    · exact Or.inl ⟨hf, hh⟩
    · rw [hg] at hg2; exact absurd hg2 (by simp)
  · rcases hb2 with ⟨hg2, _⟩ | ⟨is2, t2, hg2, hh, ht2⟩
    · rw [hg] at hg2; exact absurd hg2 (by simp)
    · rw [hg] at hg2
      obtain rfl : is ++ t = is2 := by injection hg2
      refine Or.inr ⟨is, t ++ t2, hf, by rw [hh, List.append_assoc], ?_⟩
      intro i hi
      rcases List.mem_append.mp hi with hi | hi
      · exact ht i hi
      · exact ht2 i hi

theorem forall₂_fnExtends_refl (m : List IRFunction) :
    List.Forall₂ fnExtends m m := by
  induction m with
  | nil => exact List.Forall₂.nil
  | cons f fs ih => exact List.Forall₂.cons (fnExtends_refl f) ih

theorem forall₂_fnExtends_trans (a b c : List IRFunction)
    (h1 : List.Forall₂ fnExtends a b) (h2 : List.Forall₂ fnExtends b c) :
    List.Forall₂ fnExtends a c := by
  induction h1 generalizing c with
  | nil => cases h2; exact List.Forall₂.nil
  | cons hfg hrest ih =>
    cases h2 with
    | cons hgh hrest2 =>
      exact List.Forall₂.cons (fnExtends_trans _ _ _ hfg hgh) (ih _ hrest2)

theorem stExtends_refl (st : CGState) : stExtends st st :=
  ⟨forall₂_fnExtends_refl _, rfl⟩

theorem stExtends_trans (a b c : CGState)
    (h1 : stExtends a b) (h2 : stExtends b c) : stExtends a c :=
  ⟨forall₂_fnExtends_trans _ _ _ h1.1 h2.1, h2.2.trans h1.2⟩

theorem stExtends_of_same (st st' : CGState)
    (hm : st'.module = st.module) (hi : st'.insertFn = st.insertFn) :
    stExtends st st' := by
  refine ⟨?_, hi⟩
  rw [hm]
  exact forall₂_fnExtends_refl _

theorem forall₂_updateFn_append (m : List IRFunction) (n : String) (i : Instr)
    (hi : isRetI i = false) :
    List.Forall₂ fnExtends m
      (updateFn m n (fun f => { f with body := f.body.map (fun is => is ++ [i]) })) := by
  induction m with
  | nil => exact List.Forall₂.nil
  | cons f fs ih =>
    by_cases hf : f.name = n
    · rw [updateFn, if_pos hf]
      refine List.Forall₂.cons ?_ (forall₂_fnExtends_refl fs)
      refine ⟨rfl, rfl, ?_⟩
      cases hb : f.body with
      | none => exact Or.inl ⟨rfl, by simp [hb]⟩
      | some is =>
        exact Or.inr ⟨is, [i], rfl, by simp [hb], by
          intro j hj
          rw [List.mem_singleton.mp hj]
          exact hi⟩
    · rw [updateFn, if_neg hf]
      exact List.Forall₂.cons (fnExtends_refl f) ih

theorem stExtends_emit (st : CGState) (i : Instr) (hi : isRetI i = false) :
    stExtends st (emit i st) := by
  cases hins : st.insertFn with
  | none => rw [emit, hins]; exact stExtends_refl st
  | some n =>
    rw [emit, hins]
    exact ⟨forall₂_updateFn_append st.module n i hi, hins.symm⟩

theorem stExtends_step (st : CGState) (i : Instr) (n : Nat)
    (hi : isRetI i = false) :
    stExtends st (emit i { st with nextId := n }) :=
  stExtends_trans st { st with nextId := n } (emit i { st with nextId := n })
    (stExtends_of_same st { st with nextId := n } rfl rfl)
    (stExtends_emit { st with nextId := n } i hi)

mutual

theorem exprCodegen_extends (e : Expr) : ∀ st, stExtends st (exprCodegen e st).2 := by
  cases e with
  | num s => intro st; exact stExtends_refl st
  | var name =>
    intro st
    rw [exprCodegen]
    cases hv : envLookup st.namedValues name with
    | some v => exact stExtends_refl st
    | none => exact stExtends_of_same st _ rfl rfl
  | bin op l r =>
    intro st
    have H1 := exprCodegen_extends l st
    rcases hl : exprCodegen l st with ⟨lv, st1⟩
    simp only [hl] at H1
    have H2 := exprCodegen_extends r st1
    rcases hr : exprCodegen r st1 with ⟨rv, st2⟩
    simp only [hr] at H2
    have H12 := stExtends_trans _ _ _ H1 H2
    simp only [exprCodegen, hl, hr]
    cases lv with
    | none => cases rv <;> exact H12
    | some lval =>
      cases rv with
      | none => exact H12
      | some rval =>
        dsimp only
        split
        · refine stExtends_trans _ _ _ H12 (stExtends_step _ _ _ ?_); rfl
        · refine stExtends_trans _ _ _ H12 (stExtends_step _ _ _ ?_); rfl
        · refine stExtends_trans _ _ _ H12 (stExtends_step _ _ _ ?_); rfl
        · refine stExtends_trans _ _ _ H12 (stExtends_trans _ _ _
            (stExtends_step _ _ _ ?_) (stExtends_step _ _ _ ?_)) <;> rfl
        · exact H12
  | call callee args =>
    intro st
    simp only [exprCodegen]
    cases hf : findFn st.module callee with
    | none => exact stExtends_refl st
    | some calleeF =>
      dsimp only
      by_cases hlen : calleeF.args.length ≠ args.length
      · rw [if_pos hlen]
        exact stExtends_refl st
      · rw [if_neg hlen]
        have HA := codegenArgs_extends args st
        rcases ha : codegenArgs args st with ⟨res, st1⟩
        simp only [ha] at HA ⊢
        cases res with
        | none => exact HA
        | some vs =>
          refine stExtends_trans _ _ _ HA (stExtends_step _ _ _ ?_); rfl

theorem codegenArgs_extends (es : List Expr) :
    ∀ st, stExtends st (codegenArgs es st).2 := by
  cases es with
  | nil => intro st; exact stExtends_refl st
  | cons a rest =>
    intro st
    have H1 := exprCodegen_extends a st
    rcases ha : exprCodegen a st with ⟨v, st1⟩
    simp only [ha] at H1
    simp only [codegenArgs, ha]
    cases v with
    | none => exact H1
    | some va =>
      have H2 := codegenArgs_extends rest st1
      rcases hr : codegenArgs rest st1 with ⟨res, st2⟩
      simp only [hr] at H2 ⊢
      cases res with
      | none => exact stExtends_trans _ _ _ H1 H2
      | some vs => exact stExtends_trans _ _ _ H1 H2

end

theorem findFn_cons_self (f : IRFunction) (fs : List IRFunction) (n : String)
    (h : f.name = n) : findFn (f :: fs) n = some f := by
  simp [findFn, List.find?_cons, h]

theorem findFn_cons_other (f : IRFunction) (fs : List IRFunction) (n : String)
    (h : ¬(f.name = n)) : findFn (f :: fs) n = findFn fs n := by
  simp [findFn, List.find?_cons, h]

theorem findFn_eq_none_iff (m : List IRFunction) (n : String) :
    findFn m n = none ↔ ∀ f ∈ m, ¬(f.name = n) := by
  simp [findFn, List.find?_eq_none]

theorem findFn_forall₂ (m m' : List IRFunction)
    (h : List.Forall₂ fnExtends m m') (n : String) :
    ∀ g, findFn m n = some g → ∃ g', findFn m' n = some g' ∧ fnExtends g g' := by
  induction h with
  | nil => intro g hg; simp [findFn] at hg
  | cons hfg hrest ih =>
    rename_i f₁ f₂ l₁ l₂
    intro g hg
    by_cases hn : f₁.name = n
    · rw [findFn_cons_self f₁ l₁ n hn] at hg
      obtain rfl : f₁ = g := by injection hg
      refine ⟨f₂, ?_, hfg⟩
      exact findFn_cons_self f₂ l₂ n (by rw [hfg.1, hn])
    · rw [findFn_cons_other f₁ l₁ n hn] at hg
      obtain ⟨g', hg', hext⟩ := ih g hg
      refine ⟨g', ?_, hext⟩
      rw [findFn_cons_other f₂ l₂ n (by rw [hfg.1]; exact hn)]
      exact hg'

theorem forall₂_names (m m' : List IRFunction)
    (h : List.Forall₂ fnExtends m m') :
    m'.map (fun f => f.name) = m.map (fun f => f.name) := by
  induction h with
  | nil => rfl
  | cons hfg hrest ih => simp [ih, hfg.1]

theorem findFn_updateFn_self (m : List IRFunction) (n : String)
    (u : IRFunction → IRFunction) (hu : ∀ f, (u f).name = f.name) :
    findFn (updateFn m n u) n = (findFn m n).map u := by
  induction m with
  | nil => rfl
  | cons f fs ih =>
    by_cases hf : f.name = n
    · rw [updateFn, if_pos hf, findFn_cons_self (u f) fs n (by rw [hu f, hf]),
        findFn_cons_self f fs n hf]
      rfl
    · rw [updateFn, if_neg hf, findFn_cons_other f _ n hf,
        findFn_cons_other f fs n hf, ih]

theorem updateFn_names (m : List IRFunction) (n : String)
    (u : IRFunction → IRFunction) (hu : ∀ f, (u f).name = f.name) :
    (updateFn m n u).map (fun f => f.name) = m.map (fun f => f.name) := by
  induction m with
  | nil => rfl
  | cons f fs ih =>
    by_cases hf : f.name = n
    · rw [updateFn, if_pos hf]; simp [hu f]
    · rw [updateFn, if_neg hf]; simp [ih]

theorem findFn_eraseFn_once :
    ∀ (m : List IRFunction) (n : String) (pre : List String),
      m.map (fun f => f.name) = pre ++ [n] → ¬(n ∈ pre) →
      findFn (eraseFn m n) n = none := by
  intro m
  induction m with
  | nil => intro n pre h _; simp at h
  | cons f fs ih =>
    intro n pre hmap hpre
    cases pre with
    | nil =>
      simp only [List.map_cons, List.nil_append, List.cons.injEq] at hmap
      rw [eraseFn, if_pos hmap.1, List.map_eq_nil_iff.mp hmap.2]
      rfl
    | cons p ps =>
      simp only [List.map_cons, List.cons_append, List.cons.injEq] at hmap
      have hfn : ¬(f.name = n) := by
        rw [hmap.1]
        intro hc
        exact hpre (by rw [← hc]; exact List.mem_cons_self p ps)
      rw [eraseFn, if_neg hfn, findFn_cons_other f _ n hfn]
      exact ih n ps hmap.2 (fun hc => hpre (List.mem_cons_of_mem p hc))

theorem verifyFn_append_ret (nm : String) (as : List String) (t : List Instr)
    (v : Value) (ht : ∀ i ∈ t, isRetI i = false) :
    verifyFn ⟨nm, as, some (t ++ [Instr.ret v])⟩ = true := by
  simp only [verifyFn, List.getLast?_concat, List.dropLast_concat, List.all_eq_true]
  intro i hi
  simp [ht i hi]

theorem envLookup_append_self (env : Env) (x : String) (v : Option Value)
    (h : envLookup env x = none) :
    envLookup (env ++ [(x, v)]) x = some v := by
  induction env with
  | nil => simp [envLookup]
  | cons p rest ih =>
    obtain ⟨k, w⟩ := p
    rw [envLookup] at h
    by_cases hk : k = x
    · rw [if_pos hk] at h; exact absurd h (by simp)
    · rw [if_neg hk] at h
      simp only [List.cons_append, envLookup, if_neg hk]
      exact ih h

/-!
## The claims
-/

/-- C1: `ParseBinOpRHS` implements precedence climbing correctly: an
equal-precedence chain associates left and a higher-precedence pending
operator captures the just-parsed primary as its left operand; in
particular `"1-2-3"` parses to the AST `(1-2)-3` and `"1+2*3"` parses to
the AST `1+(2*3)` (both also shown for arbitrary number payloads at the
token level). -/
theorem claim_C1_precedence_climbing :
    (∀ a b c : String,
      parseExpression 10
          [Tok.num a, Tok.op '-', Tok.num b, Tok.op '-', Tok.num c] =
        some (Expr.bin '-' (Expr.bin '-' (Expr.num a) (Expr.num b))
          (Expr.num c), []) ∧
      parseExpression 10
          [Tok.num a, Tok.op '+', Tok.num b, Tok.op '*', Tok.num c] =
        some (Expr.bin '+' (Expr.num a)
          (Expr.bin '*' (Expr.num b) (Expr.num c)), [])) ∧
    parseExpression 10 (lex "1-2-3") =
      some (Expr.bin '-' (Expr.bin '-' (Expr.num "1") (Expr.num "2"))
        (Expr.num "3"), [Tok.eof]) ∧
    parseExpression 10 (lex "1+2*3") =
      some (Expr.bin '+' (Expr.num "1")
        (Expr.bin '*' (Expr.num "2") (Expr.num "3")), [Tok.eof]) :=
  ⟨fun _ _ _ => ⟨rfl, rfl⟩, rfl, rfl⟩

/-- C2: both comment forms are skipped transparently by the lexer:
`"1 // comment\n+ 2"` and `"1 /* c */ + 2"` lex to exactly the token
sequence of `"1 + 2"`, and a block comment contributes no token. -/
theorem claim_C2_comment_skipping :
    lex "1 // comment\n+ 2" = lex "1 + 2" ∧
    lex "1 /* c */ + 2" = lex "1 + 2" ∧
    lex "1 + 2" = [Tok.num "1", Tok.op '+', Tok.num "2", Tok.eof] :=
  ⟨by decide, by decide, by decide⟩

/-- C6: the parser never accepts `'/'` as a binary operator:
`GetTokPrecedence` reports `-1` when the current token is `'/'` (the
precedence table maps only `<`, `+`, `-`, `*` to positive values), so
`ParseBinOpRHS` returns its left operand unchanged on a pending `'/'`
(for the non-negative minimum precedences the parser uses), and no
expression the parser produces contains a `BinaryOp` node with operator
`'/'`. -/
theorem claim_C6_no_division_operator :
    (∀ ts : List Tok, GetTokPrecedence (Tok.op '/' :: ts) = -1) ∧
    (∀ (fuel : Nat) (p : Int) (lhs : Expr) (ts : List Tok), 0 ≤ p →
      parseBinOpRHS (fuel + 1) p lhs (Tok.op '/' :: ts) =
        some (lhs, Tok.op '/' :: ts)) ∧
    (∀ (fuel : Nat) (ts : List Tok) (e : Expr) (r : List Tok),
      parseExpression fuel ts = some (e, r) → noDivOp e = true) := by
  refine ⟨fun ts => rfl, ?_, fun fuel => (parser_noDiv fuel).1⟩
  intro fuel p lhs ts hp
  have h : GetTokPrecedence (Tok.op '/' :: ts) < p := by
    rw [GetTokPrecedence_div]; omega
  rw [parseBinOpRHS, if_pos h]

/-- C6 witness: the three parts at concrete inputs. -/
theorem claim_C6_witness :
    GetTokPrecedence [Tok.op '/'] = -1 ∧
    ((0 : Int) ≤ 0 ∧
      parseBinOpRHS 1 0 (Expr.num "1") [Tok.op '/'] =
        some (Expr.num "1", [Tok.op '/'])) ∧
    (parseExpression 5 [Tok.num "1"] = some (Expr.num "1", []) ∧
      noDivOp (Expr.num "1") = true) := by
  refine ⟨claim_C6_no_division_operator.1 [],
    ⟨le_refl 0,
      claim_C6_no_division_operator.2.1 0 0 (Expr.num "1") [] (le_refl 0)⟩,
    rfl,
    claim_C6_no_division_operator.2.2 5 [Tok.num "1"] (Expr.num "1") [] rfl⟩

/-- C7: when the lexer stands at the start of a maximal run of digits and
`'.'` characters, it returns a number token carrying exactly that run as
`NumStr`, so `NumVal` is the string-to-double conversion applied to exactly
the run — for every conversion function, which is why the token's value
does not depend on anything (such as a locale) beyond the run's text. -/
theorem claim_C7_number_token {α : Type} (conv : String → α)
    (c : Char) (run rest : List Char)
    (h1 : isDigitDot c = true) (h2 : run.all isDigitDot = true)
    (h3 : headNotNum rest = true) :
    getTok (some c) (run ++ rest) =
      (Tok.num (String.mk (c :: run)), getchar rest) ∧
    tokNumValue conv (getTok (some c) (run ++ rest)).1 =
      some (conv (String.mk (c :: run))) := by
  have hmain : getTok (some c) (run ++ rest) =
      (Tok.num (String.mk (c :: run)), getchar rest) := by
    rw [getTok]
    exact getTokF_number ((run ++ rest).length) c run rest h1 h2 h3
  refine ⟨hmain, ?_⟩
  rw [hmain]
  rfl

/-- C7 witness: the run `12.` followed by `+3`. -/
theorem claim_C7_witness :
    isDigitDot '1' = true ∧
    (['2', '.'].all isDigitDot = true ∧ headNotNum ['+', '3'] = true) ∧
    getTok (some '1') (['2', '.'] ++ ['+', '3']) =
      (Tok.num "12.", some '+', ['3']) ∧
    tokNumValue String.length
      (getTok (some '1') (['2', '.'] ++ ['+', '3'])).1 = some 3 := by
  have h := claim_C7_number_token String.length '1' ['2', '.'] ['+', '3']
    (by decide) (by decide) (by decide)
  exact ⟨by decide, ⟨by decide, by decide⟩, h.1, h.2.trans (by decide)⟩

/-- C9: lowering a `VariableRef` whose name is absent from `NamedValues`
reports the unknown-variable error and returns null, but the
`std::map::operator[]` lookup first inserts a null binding for the name:
the environment's key set grows on the error path. -/
theorem claim_C9_env_grows_on_error (st : CGState) (x : String)
    (h : envLookup st.namedValues x = none) :
    exprCodegen (Expr.var x) st =
      (none, { st with namedValues := st.namedValues ++ [(x, none)] }) ∧
    envLookup (st.namedValues ++ [(x, none)]) x = some none := by
  constructor
  · rw [exprCodegen, h]
  · exact envLookup_append_self st.namedValues x none h

/-- C9 witness: looking up `x` in the empty environment. -/
theorem claim_C9_witness :
    envLookup initialState.namedValues "x" = none ∧
    exprCodegen (Expr.var "x") initialState =
      (none, { initialState with namedValues := [("x", none)] }) ∧
    envLookup ([("x", none)] : Env) "x" = some none := by
  have h := claim_C9_env_grows_on_error initialState "x" rfl
  exact ⟨rfl, h.1, h.2⟩

/-- C10: parsing `'(' e ')'` returns exactly the AST produced for `e`
itself — `ParseParenExpr` passes the inner expression node through, and no
parenthesis node kind exists, so `(e)` and `e` are indistinguishable to
lowering. -/
theorem claim_C10_paren_transparent (fuel : Nat) (ts : List Tok) (e : Expr)
    (rest : List Tok)
    (h : parseExpression fuel ts = some (e, Tok.op ')' :: rest)) :
    parsePrimary (fuel + 2) (Tok.op '(' :: ts) = some (e, rest) := by
  have h1 : parsePrimary (fuel + 2) (Tok.op '(' :: ts) =
      parseParenExpr (fuel + 1) ts := by
    simp [parsePrimary]
  rw [h1, parseParenExpr, h]
  rfl

/-- C10 witness: `(1)` parses to the very node of `1`. -/
theorem claim_C10_witness :
    parseExpression 3 [Tok.num "1", Tok.op ')'] =
      some (Expr.num "1", [Tok.op ')']) ∧
    parsePrimary 5 [Tok.op '(', Tok.num "1", Tok.op ')'] =
      some (Expr.num "1", []) :=
  ⟨rfl, claim_C10_paren_transparent 3 [Tok.num "1", Tok.op ')']
    (Expr.num "1") [] rfl⟩

theorem findFn_name (m : List IRFunction) (n : String) (g : IRFunction)
    (h : findFn m n = some g) : g.name = n := by
  have := List.find?_some h
  simpa using this

theorem findFn_append_none (m : List IRFunction) (n : String) (F : IRFunction)
    (h : findFn m n = none) (hF : F.name = n) :
    findFn (m ++ [F]) n = some F := by
  induction m with
  | nil => simp [findFn, List.find?_cons, hF]
  | cons f fs ih =>
    rw [findFn_eq_none_iff] at h
    have hf : ¬(f.name = n) := h f (List.mem_cons_self f fs)
    rw [List.cons_append, findFn_cons_other f _ n hf]
    exact ih (by rw [findFn_eq_none_iff]; exact fun g hg => h g (List.mem_cons_of_mem f hg))

theorem findFn_none_not_mem (m : List IRFunction) (n : String)
    (h : findFn m n = none) : ¬(n ∈ m.map (fun f => f.name)) := by
  rw [findFn_eq_none_iff] at h
  intro hc
  obtain ⟨f, hf, hname⟩ := List.mem_map.mp hc
  exact h f hf hname

/-- C3: lowering a `FunctionDef` whose name already has a body fails with
the redefinition error and leaves the state unchanged, while a name
declared only by an `import` is reused: `import f()` then `fn f() 1.0`
succeeds, and defining `f` twice fails on the second definition. -/
theorem claim_C3_redefinition :
    (∀ (fd : FunctionDef) (st : CGState) (g : IRFunction),
      findFn st.module fd.proto.name = some g → g.body ≠ none →
      funcCodegen fd st = (none, st)) ∧
    (funcCodegen ⟨⟨"f", []⟩, Expr.num "1.0"⟩
        (protoCodegen ⟨"f", []⟩ initialState).2).1 = some "f" ∧
    ((funcCodegen ⟨⟨"f", []⟩, Expr.num "1.0"⟩ initialState).1 = some "f" ∧
      (funcCodegen ⟨⟨"f", []⟩, Expr.num "2.0"⟩
        (funcCodegen ⟨⟨"f", []⟩, Expr.num "1.0"⟩ initialState).2).1 = none) := by
  refine ⟨?_, rfl, rfl, rfl⟩
  intro fd st g hfind hbody
  have hfc : funcCodegen fd st = funcCodegenBody fd g st := by
    rw [funcCodegen, hfind]
  rw [hfc, funcCodegenBody, if_pos hbody]

/-- C3 witness: the general redefinition conjunct applied to redefining an
already-defined `f`. -/
theorem claim_C3_witness :
    findFn [(⟨"f", [], some [Instr.ret (Value.constFP "1.0")]⟩ : IRFunction)]
        (⟨⟨"f", []⟩, Expr.num "2.0"⟩ : FunctionDef).proto.name =
      some ⟨"f", [], some [Instr.ret (Value.constFP "1.0")]⟩ ∧
    (⟨"f", [], some [Instr.ret (Value.constFP "1.0")]⟩ : IRFunction).body ≠ none ∧
    funcCodegen ⟨⟨"f", []⟩, Expr.num "2.0"⟩
        { module := [⟨"f", [], some [Instr.ret (Value.constFP "1.0")]⟩],
          namedValues := [], insertFn := some "f", nextId := 0 } =
      (none,
        { module := [⟨"f", [], some [Instr.ret (Value.constFP "1.0")]⟩],
          namedValues := [], insertFn := some "f", nextId := 0 }) := by
  refine ⟨rfl, by simp, ?_⟩
  exact claim_C3_redefinition.1 ⟨⟨"f", []⟩, Expr.num "2.0"⟩
    { module := [⟨"f", [], some [Instr.ret (Value.constFP "1.0")]⟩],
      namedValues := [], insertFn := some "f", nextId := 0 }
    ⟨"f", [], some [Instr.ret (Value.constFP "1.0")]⟩ rfl (by simp)

/-- C4: lowering a `Call` checks the callee: an undeclared callee is the
unknown-function error; a declared callee with a different parameter arity
is the arity-mismatch error (both before any argument is lowered);
otherwise the arguments are lowered left to right by the argument loop
(`codegenArgs`), any failure aborting the whole call with a null result,
and on success a call instruction is emitted.  After `import f(a b)`,
`f(1.0)` fails and `f(1.0, 2.0)` succeeds. -/
theorem claim_C4_call_checks :
    (∀ (st : CGState) (callee : String) (args : List Expr),
      findFn st.module callee = none →
      exprCodegen (Expr.call callee args) st = (none, st)) ∧
    (∀ (st : CGState) (callee : String) (args : List Expr) (f : IRFunction),
      findFn st.module callee = some f → f.args.length ≠ args.length →
      exprCodegen (Expr.call callee args) st = (none, st)) ∧
    (∀ (st st1 : CGState) (callee : String) (args : List Expr)
      (f : IRFunction),
      findFn st.module callee = some f → f.args.length = args.length →
      codegenArgs args st = (none, st1) →
      exprCodegen (Expr.call callee args) st = (none, st1)) ∧
    (∀ (st st1 : CGState) (callee : String) (args : List Expr)
      (f : IRFunction) (vs : List Value),
      findFn st.module callee = some f → f.args.length = args.length →
      codegenArgs args st = (some vs, st1) →
      exprCodegen (Expr.call callee args) st =
        (some (Value.instr st1.nextId),
          emit (Instr.call st1.nextId callee vs)
            { st1 with nextId := st1.nextId + 1 })) ∧
    (exprCodegen (Expr.call "f" [Expr.num "1.0"]) importedState =
        (none, importedState) ∧
      (exprCodegen (Expr.call "f" [Expr.num "1.0", Expr.num "2.0"])
          importedState).1 = some (Value.instr 0) ∧
      (exprCodegen (Expr.call "f" [Expr.num "1.0", Expr.num "2.0"])
          importedState).2.module =
        [⟨"f", ["a", "b"], none⟩,
          ⟨"g", [],
            some [Instr.call 0 "f" [Value.constFP "1.0", Value.constFP "2.0"]]⟩]) := by
  refine ⟨?_, ?_, ?_, ?_, rfl, rfl, rfl⟩
  · intro st callee args hfind
    rw [exprCodegen, hfind]
  · intro st callee args f hfind hlen
    simp only [exprCodegen, hfind]
    rw [if_pos hlen]
  · intro st st1 callee args f hfind hlen hargs
    simp only [exprCodegen, hfind]
    rw [if_neg (fun hc => hc hlen), hargs]
  · intro st st1 callee args f vs hfind hlen hargs
    simp only [exprCodegen, hfind]
    rw [if_neg (fun hc => hc hlen), hargs]
    rfl

/-- C4 witness: each checked conjunct at concrete inputs (unknown callee,
wrong arity after `import f(a b)`, an aborting argument list, and a
successful call). -/
theorem claim_C4_witness :
    (findFn initialState.module "g" = none ∧
      exprCodegen (Expr.call "g" []) initialState = (none, initialState)) ∧
    (findFn importedState.module "f" = some ⟨"f", ["a", "b"], none⟩ ∧
      (⟨"f", ["a", "b"], none⟩ : IRFunction).args.length ≠
        ([Expr.num "1.0"] : List Expr).length ∧
      exprCodegen (Expr.call "f" [Expr.num "1.0"]) importedState =
        (none, importedState)) ∧
    (codegenArgs [Expr.var "x", Expr.var "y"] importedState =
        (none, { importedState with namedValues := [("x", none)] }) ∧
      exprCodegen (Expr.call "f" [Expr.var "x", Expr.var "y"]) importedState =
        (none, { importedState with namedValues := [("x", none)] })) ∧
    (codegenArgs [Expr.num "1.0", Expr.num "2.0"] importedState =
        (some [Value.constFP "1.0", Value.constFP "2.0"], importedState) ∧
      exprCodegen (Expr.call "f" [Expr.num "1.0", Expr.num "2.0"])
          importedState =
        (some (Value.instr 0),
          emit (Instr.call 0 "f" [Value.constFP "1.0", Value.constFP "2.0"])
            { importedState with nextId := 1 })) := by
  refine ⟨⟨rfl, ?_⟩, ⟨rfl, by decide, ?_⟩, ⟨rfl, ?_⟩, ⟨rfl, ?_⟩⟩
  · exact claim_C4_call_checks.1 initialState "g" [] rfl
  · exact claim_C4_call_checks.2.1 importedState "f" [Expr.num "1.0"]
      ⟨"f", ["a", "b"], none⟩ rfl (by decide)
  · exact claim_C4_call_checks.2.2.1 importedState
      { importedState with namedValues := [("x", none)] } "f"
      [Expr.var "x", Expr.var "y"] ⟨"f", ["a", "b"], none⟩ rfl rfl rfl
  · exact claim_C4_call_checks.2.2.2.1 importedState importedState "f"
      [Expr.num "1.0", Expr.num "2.0"] ⟨"f", ["a", "b"], none⟩
      [Value.constFP "1.0", Value.constFP "2.0"] rfl rfl rfl

theorem exprCodegen_var_none (st : CGState) (x : String)
    (h : envLookup st.namedValues x = none) :
    exprCodegen (Expr.var x) st =
      (none, { st with namedValues := st.namedValues ++ [(x, none)] }) := by
  rw [exprCodegen, h]

theorem exprCodegen_var_some (st : CGState) (x : String) (v : Value)
    (h : envLookup st.namedValues x = some (some v)) :
    exprCodegen (Expr.var x) st = (some v, st) := by
  rw [exprCodegen, h]

theorem funcCodegenBody_decl (fd : FunctionDef) (nm : String)
    (asr : List String) (st : CGState) :
    funcCodegenBody fd ⟨nm, asr, none⟩ st =
      match exprCodegen fd.body (entryState st nm asr) with
      | (some rv, st3) => (some nm, emit (Instr.ret rv) st3)
      | (none, st3) => (none, { st3 with module := eraseFn st3.module nm }) := by
  rw [funcCodegenBody, if_neg (by simp)]

/-- C8: when a name was first declared by an `import` with parameter names
`P` and is later defined by `fn` with its own parameter list, the
definition's `NamedValues` environment is built from the already-existing
function's argument names (`P`), not the definition's own prototype: a body
referring to one of its own parameter names outside `P` fails with the
unknown-variable error, while a body referring to a name in `P`
succeeds. -/
theorem claim_C8_env_from_existing (st : CGState) (fd : FunctionDef)
    (g : IRFunction)
    (hfind : findFn st.module fd.proto.name = some g) (hdecl : g.body = none) :
    (∀ x, fd.body = Expr.var x → x ∈ fd.proto.args → ¬(x ∈ g.args) →
      (funcCodegen fd st).1 = none) ∧
    (∀ p, fd.body = Expr.var p → p ∈ g.args →
      (funcCodegen fd st).1 = some fd.proto.name) := by
  obtain ⟨gn, ga, gb⟩ := g
  obtain rfl : gb = none := hdecl
  have hname : gn = fd.proto.name := findFn_name st.module fd.proto.name _ hfind
  have hfc : funcCodegen fd st = funcCodegenBody fd ⟨gn, ga, none⟩ st := by
    rw [funcCodegen, hfind]
  constructor
  · intro x hbody hxQ hxP
    rw [hfc, funcCodegenBody_decl fd gn ga st, hbody]
    have hlook : envLookup (entryState st gn ga).namedValues x = none := by
      show envLookup (mkArgEnv gn ga 0 []) x = none
      rw [mkArgEnv_lookup_notMem gn ga 0 [] x hxP]
      rfl
    rw [exprCodegen_var_none (entryState st gn ga) x hlook]
  · intro p hbody hp
    rw [hfc, funcCodegenBody_decl fd gn ga st, hbody]
    obtain ⟨j, hj⟩ := mkArgEnv_lookup_mem gn ga 0 [] p hp
    have hj2 : envLookup (entryState st gn ga).namedValues p =
        some (some (Value.arg gn j)) := hj
    rw [exprCodegen_var_some (entryState st gn ga) p (Value.arg gn j) hj2]
    show (some gn : Option String) = some fd.proto.name
    rw [hname]

/-- C8 witness: `import f(a)` then `fn f(b) b` fails (the environment holds
`a`, not `b`), while `fn f(b) a` succeeds. -/
theorem claim_C8_witness :
    (findFn [(⟨"f", ["a"], none⟩ : IRFunction)] "f" = some ⟨"f", ["a"], none⟩ ∧
      (⟨"f", ["a"], none⟩ : IRFunction).body = none) ∧
    ((Expr.var "b" = Expr.var "b" ∧ "b" ∈ ["b"] ∧ ¬("b" ∈ ["a"])) ∧
      (funcCodegen ⟨⟨"f", ["b"]⟩, Expr.var "b"⟩
        { module := [⟨"f", ["a"], none⟩], namedValues := [],
          insertFn := none, nextId := 0 }).1 = none) ∧
    ("a" ∈ ["a"] ∧
      (funcCodegen ⟨⟨"f", ["b"]⟩, Expr.var "a"⟩
        { module := [⟨"f", ["a"], none⟩], namedValues := [],
          insertFn := none, nextId := 0 }).1 = some "f") := by
  have h1 := claim_C8_env_from_existing
    { module := [⟨"f", ["a"], none⟩], namedValues := [],
      insertFn := none, nextId := 0 }
    ⟨⟨"f", ["b"]⟩, Expr.var "b"⟩ ⟨"f", ["a"], none⟩ rfl rfl
  have h2 := claim_C8_env_from_existing
    { module := [⟨"f", ["a"], none⟩], namedValues := [],
      insertFn := none, nextId := 0 }
    ⟨⟨"f", ["b"]⟩, Expr.var "a"⟩ ⟨"f", ["a"], none⟩ rfl rfl
  refine ⟨⟨rfl, rfl⟩, ⟨⟨rfl, by simp, by simp⟩, ?_⟩, ⟨by simp, ?_⟩⟩
  · exact h1.1 "b" rfl (by simp) (by simp)
  · exact h2.2 "a" rfl (by simp)

/-- C5: lowering a fresh `FunctionDef` is atomic with respect to the
module.  On success the defined function sits in the module with an entry
block whose only terminator is the final `ret` of the body's value, and it
passes the structural verification `verifyFn`; if the body fails to lower,
the partially constructed function (entry block and any already-emitted
instructions included) is removed from the module — no partial function
remains — and lowering returns null. -/
theorem claim_C5_funcdef_atomic (fd : FunctionDef) (st : CGState)
    (hfresh : findFn st.module fd.proto.name = none) :
    (∀ (n : String) (st' : CGState), funcCodegen fd st = (some n, st') →
      n = fd.proto.name ∧
      ∃ g, findFn st'.module n = some g ∧ verifyFn g = true ∧
        ∃ is v, g.body = some (is ++ [Instr.ret v]) ∧
          ∀ i ∈ is, isRetI i = false) ∧
    (∀ st' : CGState, funcCodegen fd st = (none, st') →
      findFn st'.module fd.proto.name = none) := by
  have hfind2 : findFn (entryState
      { st with module := st.module ++ [⟨fd.proto.name, fd.proto.args, none⟩] }
      fd.proto.name fd.proto.args).module fd.proto.name =
      some ⟨fd.proto.name, fd.proto.args, some []⟩ := by
    show findFn (updateFn (st.module ++ [⟨fd.proto.name, fd.proto.args, none⟩])
      fd.proto.name (fun g => { g with body := some [] })) fd.proto.name = _
    rw [findFn_updateFn_self
        (st.module ++ [(⟨fd.proto.name, fd.proto.args, none⟩ : IRFunction)])
        fd.proto.name
        (fun g => { g with body := some [] }) (fun f => rfl),
      findFn_append_none st.module fd.proto.name
        (⟨fd.proto.name, fd.proto.args, none⟩ : IRFunction) hfresh rfl]
    rfl
  constructor
  · intro n st' hrun
    have hrun2 : funcCodegenBody fd ⟨fd.proto.name, fd.proto.args, none⟩
        { st with module := st.module ++ [⟨fd.proto.name, fd.proto.args, none⟩] } =
        (some n, st') := by
      rw [funcCodegen, hfresh] at hrun
      exact hrun
    rw [funcCodegenBody_decl] at hrun2
    split at hrun2
    · rename_i rv st3 heq
      simp only [Prod.mk.injEq, Option.some.injEq] at hrun2
      obtain ⟨hn, hst'⟩ := hrun2
      subst hn
      refine ⟨rfl, ?_⟩
      have HE := exprCodegen_extends fd.body (entryState
        { st with module := st.module ++ [⟨fd.proto.name, fd.proto.args, none⟩] }
        fd.proto.name fd.proto.args)
      rw [heq] at HE
      obtain ⟨g3, hg3, hext⟩ := findFn_forall₂ _ _ HE.1 fd.proto.name _ hfind2
      have hg3m : findFn st3.module fd.proto.name = some g3 := hg3
      have hg3body : ∃ t, g3.body = some t ∧ ∀ i ∈ t, isRetI i = false := by
        rcases hext.2.2 with ⟨h1, _⟩ | ⟨is, t, h1, h2, ht⟩
        · exact absurd h1 (by simp)
        · have h1' : some ([] : List Instr) = some is := h1
          obtain rfl : ([] : List Instr) = is := by injection h1'
          exact ⟨t, by simpa using h2, ht⟩
      obtain ⟨t, hg3b, ht⟩ := hg3body
      have hins3 : st3.insertFn = some fd.proto.name := HE.2
      have hmod : (emit (Instr.ret rv) st3).module =
          updateFn st3.module fd.proto.name
            (fun f => { f with body := f.body.map (fun is => is ++ [Instr.ret rv]) }) := by
        rw [emit, hins3]
      rw [← hst', hmod, findFn_updateFn_self st3.module fd.proto.name
        (fun f => { f with body := f.body.map (fun is => is ++ [Instr.ret rv]) })
        (fun f => rfl), hg3m]
      have hrecord :
          ({ g3 with body := g3.body.map (fun is => is ++ [Instr.ret rv]) } :
            IRFunction) = ⟨g3.name, g3.args, some (t ++ [Instr.ret rv])⟩ := by
        simp [hg3b]
      refine ⟨{ g3 with body := g3.body.map (fun is => is ++ [Instr.ret rv]) },
        rfl, ?_, ?_⟩
      · rw [hrecord]
        exact verifyFn_append_ret g3.name g3.args t rv ht
      · exact ⟨t, rv, by rw [hrecord], ht⟩
    · exact absurd hrun2 (by simp)
  · intro st' hrun
    have hrun2 : funcCodegenBody fd ⟨fd.proto.name, fd.proto.args, none⟩
        { st with module := st.module ++ [⟨fd.proto.name, fd.proto.args, none⟩] } =
        (none, st') := by
      rw [funcCodegen, hfresh] at hrun
      exact hrun
    rw [funcCodegenBody_decl] at hrun2
    split at hrun2
    · exact absurd hrun2 (by simp)
    · rename_i st3 heq
      have hst' : ({ st3 with module := eraseFn st3.module fd.proto.name } :
          CGState) = st' := by
        have := congrArg Prod.snd hrun2
        simpa using this
      rw [← hst']
      show findFn (eraseFn st3.module fd.proto.name) fd.proto.name = none
      have HE := exprCodegen_extends fd.body (entryState
        { st with module := st.module ++ [⟨fd.proto.name, fd.proto.args, none⟩] }
        fd.proto.name fd.proto.args)
      rw [heq] at HE
      have hnames3 : st3.module.map (fun f => f.name) =
          st.module.map (fun f => f.name) ++ [fd.proto.name] := by
        have h1 : st3.module.map (fun f => f.name) =
            (entryState
              { st with module :=
                  st.module ++ [⟨fd.proto.name, fd.proto.args, none⟩] }
              fd.proto.name fd.proto.args).module.map (fun f => f.name) :=
          forall₂_names _ _ HE.1
        rw [h1]
        show (updateFn (st.module ++ [⟨fd.proto.name, fd.proto.args, none⟩])
          fd.proto.name (fun g => { g with body := some [] })).map
            (fun f => f.name) = _
        rw [updateFn_names
          (st.module ++ [(⟨fd.proto.name, fd.proto.args, none⟩ : IRFunction)])
          fd.proto.name (fun g => { g with body := some [] }) (fun f => rfl),
          List.map_append]
        rfl
      exact findFn_eraseFn_once st3.module fd.proto.name
        (st.module.map (fun f => f.name)) hnames3
        (findFn_none_not_mem st.module fd.proto.name hfresh)

/-- C5 witness: `fn f() 1.0` succeeds with a verified single-`ret` body;
`fn h() x` fails on the unknown variable and leaves no `h` in the module. -/
theorem claim_C5_witness :
    (findFn initialState.module "f" = none ∧
      funcCodegen ⟨⟨"f", []⟩, Expr.num "1.0"⟩ initialState =
        (some "f",
          { module := [⟨"f", [], some [Instr.ret (Value.constFP "1.0")]⟩],
            namedValues := [], insertFn := some "f", nextId := 0 }) ∧
      ("f" = "f" ∧ ∃ g,
        findFn [(⟨"f", [], some [Instr.ret (Value.constFP "1.0")]⟩ :
          IRFunction)] "f" = some g ∧
        verifyFn g = true ∧
        ∃ is v, g.body = some (is ++ [Instr.ret v]) ∧
          ∀ i ∈ is, isRetI i = false)) ∧
    (findFn initialState.module "h" = none ∧
      funcCodegen ⟨⟨"h", []⟩, Expr.var "x"⟩ initialState =
        (none, { module := [], namedValues := [("x", none)],
                 insertFn := some "h", nextId := 0 }) ∧
      findFn ([] : List IRFunction) "h" = none) := by
  refine ⟨⟨rfl, rfl, ?_⟩, ⟨rfl, rfl, ?_⟩⟩
  · exact (claim_C5_funcdef_atomic ⟨⟨"f", []⟩, Expr.num "1.0"⟩
      initialState rfl).1 "f"
      { module := [⟨"f", [], some [Instr.ret (Value.constFP "1.0")]⟩],
        namedValues := [], insertFn := some "f", nextId := 0 } rfl
  · exact (claim_C5_funcdef_atomic ⟨⟨"h", []⟩, Expr.var "x"⟩
      initialState rfl).2
      { module := [], namedValues := [("x", none)],
        insertFn := some "h", nextId := 0 } rfl
